import Mathlib

/-!
# Linked-list routines of `tripleref.c` and `point.c`

Both programs work on a singly linked list of `THING`s, each holding a string
`item` and a `next` pointer.  A list head (`THING *`) is represented by the
list of the `item` strings met along the `next` chain, `NULL` being `[]`.  An
element made by `newElement(text)` (a node whose `next` is `NULL`) is
represented by its `item`.

`strcmp` is the C library function; only the sign of its result is specified,
and the programs only test it with `< 1`, `>= 1` and `== 0`.
-/

/-- Character-wise comparison behind `strcmp`: negative, zero or positive as
the first string is below, equal to or above the second. -/
def strcmpChars : List Char → List Char → Int
  | [], [] => 0
  | [], _ :: _ => -1
  | _ :: _, [] => 1
  | a :: s, b :: t =>
    if a.toNat < b.toNat then -1
    else if b.toNat < a.toNat then 1
    else strcmpChars s t

/-- The C library `strcmp`. -/
def strcmp (s t : String) : Int := strcmpChars s.toList t.toList

/-! ## tripleref.c -/

namespace Tripleref

/-- `newElement(text)`: a new node holding a copy of `text`, `next = NULL`. -/
def newElement (text : String) : String := text

/-- `insertThing(head, newP)`: the argument is the chain at `*tracer`, the
result the chain stored there afterwards.  The loop advances `tracer` while
`*tracer` is not `NULL` and `strcmp((*tracer)->item, newP->item) < 1`, then
links `newP` in front of `*tracer`. -/
def insertThing : List String → String → List String
  | [], newP => [newP]
  | x :: next, newP =>
    if strcmp x newP < 1 then
      x :: insertThing next newP
    else
      newP :: x :: next

/-- Number of times the loop of `insertThing` advances `tracer`, that is the
number of nodes that precede the new node afterwards. -/
def insertThingSteps : List String → String → Nat
  | [], _ => 0
  | x :: next, newP =>
    if strcmp x newP < 1 then
      insertThingSteps next newP + 1
    else
      0

/-- `removeThing(head, text)`: the argument is the chain at `*tracer`, the
result the chain stored there afterwards.  The loop condition assigns
`present`; the body runs only when `present` is false, advances `tracer` and
then tests `present` for the unlink step (`*tracer = (*tracer)->next`), after
which the loop goes on.  In the unlink step a `NULL` `*tracer` would be
dereferenced; the model leaves the chain as it is there. -/
def removeThing : List String → String → List String
  | [], _ => []
  | x :: next, text =>
    let present := decide (strcmp text x = 0)
    if !present then
      if present then
        match next with
        | [] => [x]
        | _ :: next2 => x :: removeThing next2 text
      else
        x :: removeThing next text
    else
      x :: next

/-- Number of times a call `removeThing(head, text)` runs its unlink-and-free
block (`old = *tracer; *tracer = (*tracer)->next; free ...`), following the same
loop as `removeThing`. -/
def removeThingUnlinks : List String → String → Nat
  | [], _ => 0
  | x :: next, text =>
    let present := decide (strcmp text x = 0)
    if !present then
      if present then
        match next with
        | [] => 1
        | _ :: next2 => removeThingUnlinks next2 text + 1
      else
        removeThingUnlinks next text
    else
      0

/-- `printList(head)`: the items in traversal order. -/
def printList (head : List String) : List String := head

/-- Texts inserted by `main`, in call order. -/
def mainInserts : List String :=
  ["Chips", "Wine", "Burgers", "Beer", "Pizza", "Zucchini", "Burgers", "Slaw"]

/-- Texts removed by `main`, in call order. -/
def mainRemoves : List String := ["Pizza", "Zucchini", "Burgers"]

/-- `main`: the two lists it prints (INITIAL LIST, ALTERED LIST). -/
def main : List String × List String :=
  let start := mainInserts.foldl (fun s text => insertThing s (newElement text)) []
  let altered := mainRemoves.foldl removeThing start
  (printList start, printList altered)

/-- One call on the list at `start`. -/
inductive Call where
  | insert (text : String)
  | remove (text : String)

/-- Effect of one call on the list at `start`. -/
def Call.apply (start : List String) : Call → List String
  | Call.insert text => insertThing start (newElement text)
  | Call.remove text => removeThing start text

/-- List at `start` after a sequence of calls on the empty list. -/
def run (calls : List Call) : List String := calls.foldl Call.apply []

end Tripleref

/-! ## point.c -/

namespace Point

/-- `newElement(text)`: a new node holding a copy of `text`, `next = NULL`. -/
def newElement (text : String) : String := text

/-- Loop of `delElement`: `before` are the nodes already passed (its last one
is `prev`, and `prev == NULL` when it is empty), the second list is the chain
at `p`.  When `p` reaches `NULL` the function ends without a `return`, so there
is no result. -/
def delElementLoop (text : String) : List String → List String → Option (List String)
  | _, [] => none
  | before, x :: next =>
    if strcmp text x = 0 then
      if before = [] then
        some next
      else
        some (before ++ next)
    else
      delElementLoop text (before ++ [x]) next

/-- `delElement(head, text)`: the returned head, or `none` when the end of the
function is reached without a `return`. -/
def delElement (head : List String) (text : String) : Option (List String) :=
  delElementLoop text [] head

/-- `addFront(head, newP)`. -/
def addFront (head : List String) (newP : String) : List String :=
  newP :: head

/-- Loop of `addEnd` from node `p2` (item `x`, chain `next` behind it): the
chain from `p2` once `newP` is linked after the last node. -/
def addEndLoop (newP : String) : String → List String → List String
  | x, [] => [x, newP]
  | x, y :: rest => x :: addEndLoop newP y rest

/-- `addEnd(head, newP)`. -/
def addEnd (head : List String) (newP : String) : List String :=
  match head with
  | [] => [newP]
  | x :: next => addEndLoop newP x next

/-- Value of the flag `found`, which `addMiddle` never assigns after its
initialisation. -/
def found : Bool := false

/-- Main loop of `addMiddle`: `before` are the nodes in front of `p1` (empty
exactly when `p1 == head`, otherwise its last node is `p2`), the second list is
the chain at `p1`.  `none` stands for dereferencing `p1 == NULL`.  The test is
`found == strcmp(p1->item, newP->item) >= 1`, in which `>=` binds tighter
than `==`. -/
def addMiddleLoop (head : List String) (newP : String) :
    List String → List String → Option (List String)
  | _, [] => none
  | before, x :: next =>
    if found == decide (strcmp x newP ≥ 1) then
      if before = [] then
        some (addFront head newP)
      else
        some (before ++ newP :: x :: next)
    else if next = [] then
      some (addEnd head newP)
    else
      addMiddleLoop head newP (before ++ [x]) next

/-- `addMiddle(head, newP)`. -/
def addMiddle (head : List String) (newP : String) : Option (List String) :=
  match head with
  | [] => some (addFront head newP)
  | _ :: _ => addMiddleLoop head newP [] head

/-- `main` up to the first `printList`: the list printed as INITIAL LIST. -/
def main : Option (List String) :=
  (addMiddle [] (newElement "BEER")).bind fun start =>
  (addMiddle start (newElement "WINE")).bind fun start =>
  some start

/-- How a call of a function that returns a list head ends. -/
inductive Outcome where
  | returned (head : List String)
  | nullDeref
  | noReturn
  deriving DecidableEq

/-- Scan of `addEnd` with the chain at `p2`, which as a pointer may be `NULL`:
`p2->next` is read at every test of the loop, and once it is `NULL` the new
node is linked there.  `none` stands for reading `p2->next` with
`p2 == NULL`. -/
def addEndScan (newP : String) : List String → Option (List String)
  | [] => none
  | x :: next =>
    if next = [] then
      some [x, newP]
    else
      (addEndScan newP next).map fun chain => x :: chain

/-- `addEnd(head, newP)` with its way of ending made explicit. -/
def addEndExec (head : List String) (newP : String) : Outcome :=
  if head = [] then
    Outcome.returned [newP]
  else
    match addEndScan newP head with
    | none => Outcome.nullDeref
    | some chain => Outcome.returned chain

/-- Main loop of `addMiddle` with its way of ending made explicit: the loop
test `!found` comes first, and when it fails the end of the function is
reached; then `p1->item` is read, which is a `NULL` dereference when the chain
at `p1` is empty. -/
def addMiddleScan (head : List String) (newP : String) :
    List String → List String → Outcome
  | _, [] => if !found then Outcome.nullDeref else Outcome.noReturn
  | before, x :: next =>
    if !found then
      if found == decide (strcmp x newP ≥ 1) then
        if before = [] then
          Outcome.returned (addFront head newP)
        else
          Outcome.returned (before ++ newP :: x :: next)
      else if next = [] then
        addEndExec head newP
      else
        addMiddleScan head newP (before ++ [x]) next
    else
      Outcome.noReturn

/-- `addMiddle(head, newP)` with its way of ending made explicit. -/
def addMiddleExec (head : List String) (newP : String) : Outcome :=
  if head = [] then
    Outcome.returned (addFront head newP)
  else
    addMiddleScan head newP [] head

/-- Calls `head = f(head, text)` for each text in turn, threading the returned
head; `none` as soon as one call gives no result. -/
def thread (f : List String → String → Option (List String)) :
    List String → List String → Option (List String)
  | head, [] => some head
  | head, text :: rest => (f head text).bind fun head1 => thread f head1 rest

end Point

/-! ## Ordering and helper lemmas -/

/-- Ascending list: every adjacent pair `(a, b)` has `strcmp a b ≤ 0`. -/
def Ascending (l : List String) : Prop :=
  List.Chain' (fun a b => strcmp a b ≤ 0) l

/-- Descending list: every adjacent pair `(a, b)` has `strcmp b a ≤ 0`. -/
def Descending (l : List String) : Prop :=
  List.Chain' (fun a b => strcmp b a ≤ 0) l

theorem strcmpChars_self (s : List Char) : strcmpChars s s = 0 := by
  induction s with
  | nil => rfl
  | cons a s ih => simp [strcmpChars, ih]

theorem strcmpChars_eq_zero : ∀ s t : List Char, strcmpChars s t = 0 → s = t
  | [], [], _ => rfl
  | [], _ :: _, h => by simp [strcmpChars] at h
  | _ :: _, [], h => by simp [strcmpChars] at h
  | a :: s, b :: t, h => by
    unfold strcmpChars at h
    by_cases h1 : a.toNat < b.toNat
    · simp [h1] at h
    · by_cases h2 : b.toNat < a.toNat
      · simp [h1, h2] at h
      · simp only [h1, h2, if_false] at h
        have hab : a = b := by
          apply Char.ext
          apply UInt32.ext
          have : a.toNat = b.toNat := by omega
          simpa [Char.toNat, UInt32.toNat] using this
        rw [hab, strcmpChars_eq_zero s t h]

theorem strcmpChars_swap : ∀ s t : List Char, strcmpChars t s = - strcmpChars s t
  | [], [] => rfl
  | [], _ :: _ => rfl
  | _ :: _, [] => rfl
  | a :: s, b :: t => by
    unfold strcmpChars
    split_ifs with h1 h2 h3 <;> first | omega | rfl | exact strcmpChars_swap s t

theorem strcmpChars_trans : ∀ s t u : List Char,
    strcmpChars s t ≤ 0 → strcmpChars t u ≤ 0 → strcmpChars s u ≤ 0
  | [], _, [], _, _ => by simp [strcmpChars]
  | [], _, _ :: _, _, _ => by simp [strcmpChars]
  | _ :: _, [], _, h, _ => by simp [strcmpChars] at h
  | _ :: _, _ :: _, [], _, h => by simp [strcmpChars] at h
  | a :: s, b :: t, c :: u, h1, h2 => by
    unfold strcmpChars at h1 h2 ⊢
    split_ifs at h1 h2 ⊢ <;> first | omega | exact strcmpChars_trans s t u h1 h2

theorem strcmp_self (s : String) : strcmp s s = 0 := strcmpChars_self _

theorem strcmp_eq_zero_iff (s t : String) : strcmp s t = 0 ↔ s = t := by
  constructor
  · intro h
    exact String.ext (strcmpChars_eq_zero _ _ h)
  · rintro rfl
    exact strcmp_self s

theorem strcmp_swap (s t : String) : strcmp t s = - strcmp s t :=
  strcmpChars_swap _ _

theorem strcmp_trans (s t u : String) :
    strcmp s t ≤ 0 → strcmp t u ≤ 0 → strcmp s u ≤ 0 :=
  strcmpChars_trans _ _ _

/-! ## tripleref.c: lemmas -/

namespace Tripleref

theorem removeThing_eq (l : List String) (text : String) : removeThing l text = l := by
  induction l with
  | nil => rfl
  | cons x next ih =>
    unfold removeThing
    by_cases h : strcmp text x = 0
    · simp [h]
    · simp [h, ih]

theorem insertThing_head (l : List String) (k y : String)
    (h : (insertThing l k).head? = some y) : y = k ∨ l.head? = some y := by
  cases l with
  | nil =>
    left
    simpa [insertThing, eq_comm] using h
  | cons x next =>
    unfold insertThing at h
    split_ifs at h
    · right
      simpa using h
    · left
      simpa [eq_comm] using h

theorem insertThing_ascending (l : List String) (k : String) (hl : Ascending l) :
    Ascending (insertThing l k) := by
  induction l with
  | nil => simp [insertThing, Ascending]
  | cons x next ih =>
    unfold insertThing
    split_ifs with hx
    · have hnext : Ascending next := List.Chain'.tail hl
      refine List.Chain'.cons' (ih hnext) ?_
      intro y hy
      rcases insertThing_head next k y hy with rfl | hy'
      · omega
      · exact List.Chain'.rel_head? hl hy'
    · refine List.Chain'.cons ?_ hl
      have := strcmp_swap x k
      omega

theorem insertThing_perm (l : List String) (k : String) :
    (insertThing l k).Perm (k :: l) := by
  induction l with
  | nil => simp [insertThing]
  | cons x next ih =>
    unfold insertThing
    split_ifs
    · exact (ih.cons x).trans (List.Perm.swap k x next)
    · exact List.Perm.refl _

theorem foldl_insertThing_ascending (keys start : List String) (h : Ascending start) :
    Ascending (keys.foldl insertThing start) := by
  induction keys generalizing start with
  | nil => simpa using h
  | cons k keys ih => exact ih _ (insertThing_ascending start k h)

theorem foldl_insertThing_perm (keys start : List String) :
    (keys.foldl insertThing start).Perm (start ++ keys) := by
  induction keys generalizing start with
  | nil => simp
  | cons k keys ih =>
    refine (ih (insertThing start k)).trans ?_
    have h1 : (insertThing start k ++ keys).Perm ((k :: start) ++ keys) :=
      (insertThing_perm start k).append_right keys
    refine h1.trans ?_
    simpa using (@List.perm_middle String k start keys).symm

end Tripleref

theorem strcmp_antisymm (a b : String) (h1 : strcmp a b ≤ 0) (h2 : strcmp b a ≤ 0) :
    a = b := by
  have := strcmp_swap a b
  exact (strcmp_eq_zero_iff a b).1 (by omega)

theorem Ascending.sorted {l : List String} (h : Ascending l) :
    List.Sorted (fun a b => strcmp a b ≤ 0) l := by
  haveI : IsTrans String (fun a b => strcmp a b ≤ 0) := ⟨strcmp_trans⟩
  exact List.chain'_iff_pairwise.1 h

/-! ## tripleref.c: claims -/

/-- C1: every list reached from the empty list by a finite sequence of
`insertThing` and `removeThing` calls, with any keys, is in non-decreasing
`strcmp` order: every adjacent pair `(a, b)` has `strcmp a b ≤ 0`. -/
theorem reachable_ascending (calls : List Tripleref.Call) :
    List.Chain' (fun a b => strcmp a b ≤ 0) (Tripleref.run calls) := by
  have key : ∀ (cs : List Tripleref.Call) (start : List String), Ascending start →
      Ascending (cs.foldl Tripleref.Call.apply start) := by
    intro cs
    induction cs with
    | nil => intro start h; simpa using h
    | cons c cs ih =>
      intro start h
      refine ih _ ?_
      cases c with
      | insert text => exact Tripleref.insertThing_ascending start _ h
      | remove text =>
        show Ascending (Tripleref.removeThing start text)
        rw [Tripleref.removeThing_eq]
        exact h
  exact key calls [] List.chain'_nil

/-- C2: inserting any finite sequence of keys one by one with `insertThing`
into the empty list gives a permutation of the keys (same multiplicities) that
is sorted in `strcmp` order, and it is the only sorted permutation of them;
the eight inserts of `main` give Beer, Burgers, Burgers, Chips, Pizza, Slaw,
Wine, Zucchini. -/
theorem insertThing_all_sorted_perm :
    (∀ keys : List String,
      let result := keys.foldl (fun s text => Tripleref.insertThing s (Tripleref.newElement text)) []
      result.Perm keys ∧
      List.Sorted (fun a b => strcmp a b ≤ 0) result ∧
      (∀ a : String, result.count a = keys.count a) ∧
      (∀ other : List String, other.Perm keys →
        List.Sorted (fun a b => strcmp a b ≤ 0) other → other = result)) ∧
    Tripleref.mainInserts.foldl
        (fun s text => Tripleref.insertThing s (Tripleref.newElement text)) [] =
      ["Beer", "Burgers", "Burgers", "Chips", "Pizza", "Slaw", "Wine", "Zucchini"] := by
  refine ⟨?_, by decide⟩
  intro keys
  have hp : (keys.foldl Tripleref.insertThing []).Perm keys := by
    simpa using Tripleref.foldl_insertThing_perm keys []
  have hs : List.Sorted (fun a b => strcmp a b ≤ 0) (keys.foldl Tripleref.insertThing []) :=
    (Tripleref.foldl_insertThing_ascending keys [] List.chain'_nil).sorted
  refine ⟨hp, hs, fun a => hp.count_eq a, ?_⟩
  intro other ho hso
  haveI : IsAntisymm String (fun a b => strcmp a b ≤ 0) := ⟨strcmp_antisymm⟩
  exact List.eq_of_perm_of_sorted (ho.trans hp.symm) hso hs

/-- C3 (code defect): on the list built by `main`, which holds Pizza,
`removeThing` with Pizza leaves all eight nodes in place, and the list `main`
prints after its three removals is the initial list. -/
theorem removeThing_present_key_kept :
    "Pizza" ∈ ["Beer", "Burgers", "Burgers", "Chips", "Pizza", "Slaw", "Wine", "Zucchini"] ∧
    Tripleref.removeThing
        ["Beer", "Burgers", "Burgers", "Chips", "Pizza", "Slaw", "Wine", "Zucchini"] "Pizza" =
      ["Beer", "Burgers", "Burgers", "Chips", "Pizza", "Slaw", "Wine", "Zucchini"] ∧
    Tripleref.main.2 =
      ["Beer", "Burgers", "Burgers", "Chips", "Pizza", "Slaw", "Wine", "Zucchini"] ∧
    Tripleref.main.2 ≠ ["Beer", "Burgers", "Chips", "Slaw", "Wine"] := by
  decide

/-- C6: for every list, the empty one included, and every text that is the
item of no node, `removeThing` leaves the list as it was (same head, same
sequence, same size); the function is total and gives no error signal. -/
theorem removeThing_absent_unchanged (l : List String) (text : String)
    (h : ∀ x ∈ l, x ≠ text) :
    Tripleref.removeThing l text = l ∧
    (Tripleref.removeThing l text).head? = l.head? ∧
    (Tripleref.removeThing l text).length = l.length ∧
    Tripleref.removeThing [] text = [] := by
  have := h
  rw [Tripleref.removeThing_eq]
  exact ⟨rfl, rfl, rfl, rfl⟩

theorem removeThing_absent_unchanged_witness :
    (∀ x ∈ ["Beer", "Chips"], x ≠ "Wine") ∧
    Tripleref.removeThing ["Beer", "Chips"] "Wine" = ["Beer", "Chips"] :=
  ⟨by decide,
    (removeThing_absent_unchanged ["Beer", "Chips"] "Wine" (by decide)).1⟩

/-! ## point.c: lemmas -/

namespace Point

theorem delElementLoop_mem (text : String) (p before : List String) (h : text ∈ p) :
    delElementLoop text before p = some (before ++ p.erase text) := by
  induction p generalizing before with
  | nil => simp at h
  | cons x next ih =>
    unfold delElementLoop
    by_cases hx : strcmp text x = 0
    · have hxe : text = x := (strcmp_eq_zero_iff text x).1 hx
      subst hxe
      simp only [hx, if_true, List.erase_cons_head]
      split_ifs with hb
      · simp [hb]
      · rfl
    · have hne : text ≠ x := fun e => hx ((strcmp_eq_zero_iff text x).2 e)
      have hmem : text ∈ next := by
        rcases List.mem_cons.1 h with e | e
        · exact absurd e hne
        · exact e
      simp only [hx, if_false]
      rw [ih _ hmem, List.erase_cons_tail (by simpa using hne.symm)]
      simp

theorem delElementLoop_not_mem (text : String) (p before : List String) (h : text ∉ p) :
    delElementLoop text before p = none := by
  induction p generalizing before with
  | nil => rfl
  | cons x next ih =>
    unfold delElementLoop
    have hne : text ≠ x := fun e => h (by simp [e])
    have hx : ¬ strcmp text x = 0 := fun e => hne ((strcmp_eq_zero_iff text x).1 e)
    simp only [hx, if_false]
    exact ih _ (fun hm => h (List.mem_cons_of_mem _ hm))

end Point

/-! ## point.c: claims -/

/-- C4: for every list and every text that occurs in it, `delElement` returns
the list without the first node whose item equals the text: the nodes in front
of it (none of which holds the text) are followed directly by its successors,
the returned head is the successor when the node is the head, later nodes with
the same item stay, the other nodes keep their order, and the size drops by
exactly one. -/
theorem delElement_removes_first (head : List String) (text : String) (h : text ∈ head) :
    ∃ before next : List String,
      head = before ++ text :: next ∧ text ∉ before ∧
      Point.delElement head text = some (before ++ next) ∧
      (before = [] → Point.delElement head text = some head.tail) ∧
      before ++ next = head.erase text ∧
      (before ++ next).length + 1 = head.length ∧
      (before ++ next).count text + 1 = head.count text := by
  obtain ⟨before, next, hnot, hsplit, herase⟩ := List.exists_erase_eq h
  have hdel : Point.delElement head text = some (before ++ next) := by
    unfold Point.delElement
    rw [Point.delElementLoop_mem text head [] h, herase]
    rfl
  refine ⟨before, next, hsplit, hnot, hdel, ?_, herase.symm, ?_, ?_⟩
  · intro hb
    rw [hdel, hsplit, hb]
    rfl
  · rw [hsplit]
    simp
    omega
  · rw [hsplit]
    simp
    omega

theorem delElement_removes_first_witness :
    "b" ∈ ["a", "b", "c", "b"] ∧
    ∃ before next : List String,
      ["a", "b", "c", "b"] = before ++ "b" :: next ∧ "b" ∉ before ∧
      Point.delElement ["a", "b", "c", "b"] "b" = some (before ++ next) ∧
      (before = [] → Point.delElement ["a", "b", "c", "b"] "b" =
        some (["a", "b", "c", "b"] : List String).tail) ∧
      before ++ next = (["a", "b", "c", "b"] : List String).erase "b" ∧
      (before ++ next).length + 1 = (["a", "b", "c", "b"] : List String).length ∧
      (before ++ next).count "b" + 1 = (["a", "b", "c", "b"] : List String).count "b" :=
  ⟨by decide, delElement_removes_first ["a", "b", "c", "b"] "b" (by decide)⟩

/-- C5 (code defect): with a text that is the item of no node, on the empty
list and on a one-node list, `delElement` runs to the end of its body, where
there is no `return`, so it returns no list. -/
theorem delElement_absent_no_return :
    Point.delElement [] "WINE" = none ∧
    Point.delElement ["BEER"] "WINE" = none ∧
    Point.delElement ["BEER"] "WINE" ≠ some ["BEER"] := by
  decide

/-- C7 (code defect): `addMiddle` with BEER and then WINE from the empty list,
as `main` does, gives WINE, BEER, which is not in non-decreasing `strcmp`
order. -/
theorem addMiddle_beer_wine_descending :
    Point.main = some ["WINE", "BEER"] ∧
    ((Point.addMiddle [] "BEER").bind fun start => Point.addMiddle start "WINE") =
      some ["WINE", "BEER"] ∧
    ¬ List.Chain' (fun a b => strcmp a b ≤ 0) ["WINE", "BEER"] ∧
    Point.main ≠ some ["BEER", "WINE"] := by
  refine ⟨by decide, by decide, ?_, by decide⟩
  intro h
  exact absurd (List.Chain'.rel_head h) (by decide)

/-- C10: calling `addFront` on a new element for each key in turn, from the
empty list and threading the returned head, gives the keys in reverse
insertion order; each call returns the new node as head followed by the old
list. -/
theorem addFront_reverse (keys : List String) :
    keys.foldl (fun head text => Point.addFront head (Point.newElement text)) [] =
      keys.reverse ∧
    ∀ (head : List String) (text : String),
      Point.addFront head (Point.newElement text) = text :: head := by
  refine ⟨?_, fun _ _ => rfl⟩
  have key : ∀ (ks start : List String),
      ks.foldl (fun head text => Point.addFront head (Point.newElement text)) start =
        ks.reverse ++ start := by
    intro ks
    induction ks with
    | nil => intro start; rfl
    | cons k ks ih =>
      intro start
      rw [List.foldl_cons, ih]
      simp [Point.addFront, Point.newElement]
  simpa using key keys []

/-! ## tripleref.c: position of the new node -/

namespace Tripleref

theorem insertThing_eq_take_drop (l : List String) (k : String) :
    insertThing l k = l.take (insertThingSteps l k) ++ k :: l.drop (insertThingSteps l k) := by
  induction l with
  | nil => rfl
  | cons x next ih =>
    unfold insertThing insertThingSteps
    split_ifs
    · rw [List.take_succ_cons, List.drop_succ_cons, List.cons_append, ← ih]
    · rfl

theorem insertThingSteps_eq_takeWhile (l : List String) (k : String) :
    insertThingSteps l k = (l.takeWhile fun x => decide (strcmp x k < 1)).length := by
  induction l with
  | nil => rfl
  | cons x next ih =>
    unfold insertThingSteps
    by_cases hx : strcmp x k < 1
    · simp [List.takeWhile_cons, hx, ih]
    · simp [List.takeWhile_cons, hx]

theorem insertThing_eq_takeWhile (l : List String) (k : String) :
    insertThing l k =
      (l.takeWhile fun x => decide (strcmp x k < 1)) ++
        k :: l.dropWhile fun x => decide (strcmp x k < 1) := by
  induction l with
  | nil => rfl
  | cons x next ih =>
    unfold insertThing
    by_cases hx : strcmp x k < 1
    · simp [List.takeWhile_cons, List.dropWhile_cons, hx, ih]
    · simp [List.takeWhile_cons, List.dropWhile_cons, hx]

theorem take_steps_le (l : List String) (k : String) :
    ∀ x ∈ l.take (insertThingSteps l k), strcmp x k ≤ 0 := by
  induction l with
  | nil => simp
  | cons x next ih =>
    unfold insertThingSteps
    split_ifs with hx
    · intro y hy
      rw [List.take_succ_cons] at hy
      rcases List.mem_cons.1 hy with rfl | hy
      · omega
      · exact ih y hy
    · simp

theorem drop_steps_gt (l : List String) (k : String) (hl : Ascending l) :
    ∀ y ∈ l.drop (insertThingSteps l k), 1 ≤ strcmp y k := by
  induction l with
  | nil => simp
  | cons x next ih =>
    unfold insertThingSteps
    split_ifs with hx
    · intro y hy
      rw [List.drop_succ_cons] at hy
      exact ih (List.Chain'.tail hl) y hy
    · intro y hy
      rw [List.drop_zero] at hy
      by_contra hy1
      have hyk : strcmp y k ≤ 0 := by omega
      rcases List.mem_cons.1 hy with rfl | hy
      · omega
      · have hxy : strcmp x y ≤ 0 := List.rel_of_sorted_cons hl.sorted y hy
        have := strcmp_trans x y k hxy hyk
        omega

theorem steps_eq_countP (l : List String) (k : String) (hl : Ascending l) :
    insertThingSteps l k = l.countP fun x => decide (strcmp x k ≤ 0) := by
  have hsplit := List.take_append_drop (insertThingSteps l k) l
  have h1 : (l.take (insertThingSteps l k)).countP (fun x => decide (strcmp x k ≤ 0)) =
      (l.take (insertThingSteps l k)).length := by
    rw [List.countP_eq_length]
    intro x hx
    simpa using take_steps_le l k x hx
  have h2 : (l.drop (insertThingSteps l k)).countP (fun x => decide (strcmp x k ≤ 0)) = 0 := by
    rw [List.countP_eq_zero]
    intro y hy
    have := drop_steps_gt l k hl y hy
    simp only [decide_eq_true_eq]
    omega
  have hlen : (l.take (insertThingSteps l k)).length = insertThingSteps l k := by
    rw [List.length_take, insertThingSteps_eq_takeWhile]
    exact Nat.min_eq_left (List.takeWhile_sublist _).length_le
  calc insertThingSteps l k
      = (l.take (insertThingSteps l k)).countP (fun x => decide (strcmp x k ≤ 0)) +
          (l.drop (insertThingSteps l k)).countP (fun x => decide (strcmp x k ≤ 0)) := by
        rw [h1, h2, hlen, Nat.add_zero]
    _ = l.countP fun x => decide (strcmp x k ≤ 0) := by
        rw [← List.countP_append, hsplit]

end Tripleref

/-- C8 (as stated, refuted): on the list Wine, Beer with the new key Wine,
`insertThing` does not give (longest prefix of keys strictly below the key),
key, rest; and on the one-node list Beer with the new key Beer it advances
past one node although no key is strictly below Beer. -/
theorem insertThing_not_strict_prefix :
    Tripleref.insertThing ["Wine", "Beer"] "Wine" = ["Wine", "Beer", "Wine"] ∧
    Tripleref.insertThing ["Wine", "Beer"] "Wine" ≠
      (["Wine", "Beer"].takeWhile fun x => decide (strcmp x "Wine" < 0)) ++
        "Wine" :: (["Wine", "Beer"].dropWhile fun x => decide (strcmp x "Wine" < 0)) ∧
    Tripleref.insertThingSteps ["Beer"] "Beer" = 1 ∧
    (["Beer"].takeWhile fun x => decide (strcmp x "Beer" < 0)).length = 0 := by
  decide

/-- C8 (amended): for every list, whatever its order, and every key,
`insertThing` advances past exactly the leading nodes whose key is less than or
equal to the new key and links the new node immediately before the first node
whose key is strictly greater, or at the end if there is none: the result is
(longest prefix of keys `≤ key`) followed by the key and the rest. -/
theorem insertThing_prefix_le (l : List String) (k : String) :
    Tripleref.insertThing l k =
      (l.takeWhile fun x => decide (strcmp x k ≤ 0)) ++
        k :: (l.dropWhile fun x => decide (strcmp x k ≤ 0)) ∧
    Tripleref.insertThingSteps l k =
      (l.takeWhile fun x => decide (strcmp x k ≤ 0)).length ∧
    (∀ x ∈ l.takeWhile fun x => decide (strcmp x k ≤ 0), strcmp x k ≤ 0) ∧
    (∀ y, (l.dropWhile fun x => decide (strcmp x k ≤ 0)).head? = some y → 0 < strcmp y k) := by
  have hfun : (fun x : String => decide (strcmp x k ≤ 0)) =
      fun x : String => decide (strcmp x k < 1) := by
    funext x
    exact decide_eq_decide.2 (by omega)
  rw [hfun]
  refine ⟨Tripleref.insertThing_eq_takeWhile l k,
    Tripleref.insertThingSteps_eq_takeWhile l k, ?_, ?_⟩
  · intro x hx
    have := List.mem_takeWhile_imp hx
    simp only [decide_eq_true_eq] at this
    omega
  · intro y hy
    have := List.head?_dropWhile_not (fun x => decide (strcmp x k < 1)) l
    rw [hy] at this
    simp only [Option.all_some, Bool.not_eq_true', decide_eq_false_iff_not] at this
    omega

/-- C9: for every ascending list that already holds key `k`, `insertThing`
with `k` keeps the existing nodes in place and links the new node at the
position equal to the number of nodes with key `≤ k`: no node behind it holds
`k`, the node just in front of it is an existing copy of `k`, and the count of
`k` grows by exactly one. -/
theorem insertThing_duplicate_after (l : List String) (k : String)
    (hl : List.Chain' (fun a b => strcmp a b ≤ 0) l) (hk : k ∈ l) :
    Tripleref.insertThing l k =
      l.take (Tripleref.insertThingSteps l k) ++
        k :: l.drop (Tripleref.insertThingSteps l k) ∧
    Tripleref.insertThingSteps l k = (l.countP fun x => decide (strcmp x k ≤ 0)) ∧
    k ∉ l.drop (Tripleref.insertThingSteps l k) ∧
    (l.take (Tripleref.insertThingSteps l k)).getLast? = some k ∧
    (Tripleref.insertThing l k).count k = l.count k + 1 := by
  have hdrop : k ∉ l.drop (Tripleref.insertThingSteps l k) := by
    intro hmem
    have h1 := Tripleref.drop_steps_gt l k hl k hmem
    have h2 := strcmp_self k
    omega
  have htake : k ∈ l.take (Tripleref.insertThingSteps l k) := by
    rw [← List.take_append_drop (Tripleref.insertThingSteps l k) l] at hk
    rcases List.mem_append.1 hk with h | h
    · exact h
    · exact absurd h hdrop
  refine ⟨Tripleref.insertThing_eq_take_drop l k, Tripleref.steps_eq_countP l k hl, hdrop,
    ?_, ?_⟩
  · have hsorted : List.Sorted (fun a b => strcmp a b ≤ 0)
        (l.take (Tripleref.insertThingSteps l k)) :=
      (Ascending.sorted hl).sublist (List.take_sublist _ _)
    cases hlast : (l.take (Tripleref.insertThingSteps l k)).getLast? with
    | none =>
      rw [List.getLast?_eq_none_iff] at hlast
      rw [hlast] at htake
      simp at htake
    | some z =>
      have hz : z ∈ l.take (Tripleref.insertThingSteps l k) := List.mem_of_getLast?_eq_some hlast
      have hzk : strcmp z k ≤ 0 := Tripleref.take_steps_le l k z hz
      have hdec := List.dropLast_append_getLast? z hlast
      have hkz : strcmp k z ≤ 0 := by
        rw [← hdec] at htake hsorted
        rcases List.mem_append.1 htake with h | h
        · exact (List.pairwise_append.1 hsorted).2.2 k h z (by simp)
        · have : k = z := by simpa using h
          rw [this, strcmp_self]
      rw [strcmp_antisymm k z hkz hzk]
  · rw [(Tripleref.insertThing_perm l k).count_eq, List.count_cons_self]

theorem insertThing_duplicate_after_witness :
    List.Chain' (fun a b => strcmp a b ≤ 0) ["Beer", "Burgers", "Chips"] ∧
    "Burgers" ∈ ["Beer", "Burgers", "Chips"] ∧
    Tripleref.insertThingSteps ["Beer", "Burgers", "Chips"] "Burgers" =
      (["Beer", "Burgers", "Chips"].countP fun x => decide (strcmp x "Burgers" ≤ 0)) :=
  have hasc : List.Chain' (fun a b => strcmp a b ≤ 0) ["Beer", "Burgers", "Chips"] := by
    refine List.Chain'.cons (by decide) (List.Chain'.cons (by decide) ?_)
    exact List.chain'_singleton _
  ⟨hasc, by decide,
    (insertThing_duplicate_after ["Beer", "Burgers", "Chips"] "Burgers" hasc (by decide)).2.1⟩

/-! ## point.c: `addEnd` -/

namespace Point

theorem addEndLoop_eq (newP : String) (next : List String) (x : String) :
    addEndLoop newP x next = x :: next ++ [newP] := by
  induction next generalizing x with
  | nil => rfl
  | cons y rest ih =>
    unfold addEndLoop
    rw [ih y]
    rfl

theorem addEnd_eq (head : List String) (newP : String) :
    addEnd head newP = head ++ [newP] := by
  cases head with
  | nil => rfl
  | cons x next => exact addEndLoop_eq newP next x

end Point

/-- C11: calling `addEnd` on a new element for each key in turn, from the
empty list and threading the returned head, gives the keys in insertion order;
on the empty list the new node becomes the head, and on a non-empty list the
head stays and the new node follows the former last node. -/
theorem addEnd_insertion_order (keys : List String) :
    keys.foldl (fun head text => Point.addEnd head (Point.newElement text)) [] = keys ∧
    (∀ text : String, Point.addEnd [] (Point.newElement text) = [text]) ∧
    (∀ (x : String) (next : List String) (text : String),
      Point.addEnd (x :: next) (Point.newElement text) = x :: next ++ [text] ∧
      (Point.addEnd (x :: next) (Point.newElement text)).head? = some x ∧
      (Point.addEnd (x :: next) (Point.newElement text)).getLast? = some text ∧
      (Point.addEnd (x :: next) (Point.newElement text)).dropLast = x :: next) := by
  refine ⟨?_, fun _ => rfl, ?_⟩
  · have key : ∀ (ks start : List String),
        ks.foldl (fun head text => Point.addEnd head (Point.newElement text)) start =
          start ++ ks := by
      intro ks
      induction ks with
      | nil => intro start; simp
      | cons k ks ih =>
        intro start
        rw [List.foldl_cons, ih, Point.addEnd_eq]
        simp [Point.newElement]
    simpa using key keys []
  · intro x next text
    rw [Point.addEnd_eq]
    refine ⟨rfl, rfl, ?_, ?_⟩
    · exact List.getLast?_concat (x :: next)
    · exact List.dropLast_concat

/-- C14: `insertThing` on the structural edge cases: into the empty list the
key becomes the only node; in front of a head whose key is strictly greater
the new node becomes the head followed by the unchanged old list; and when
every key of the list is `≤` the new key the new node becomes the last node
behind the unchanged old list. -/
theorem insertThing_edge_cases (k x : String) (next l : List String)
    (hhead : 0 < strcmp x k) (hall : ∀ y ∈ l, strcmp y k ≤ 0) :
    Tripleref.insertThing [] k = [k] ∧
    Tripleref.insertThing (x :: next) k = k :: x :: next ∧
    Tripleref.insertThing l k = l ++ [k] := by
  refine ⟨rfl, ?_, ?_⟩
  · have hx : ¬ strcmp x k < 1 := by omega
    simp [Tripleref.insertThing, hx]
  · induction l with
    | nil => rfl
    | cons y rest ih =>
      have hy : strcmp y k < 1 := by
        have := hall y (List.mem_cons_self _ _)
        omega
      have hrest : ∀ z ∈ rest, strcmp z k ≤ 0 :=
        fun z hz => hall z (List.mem_cons_of_mem _ hz)
      simp [Tripleref.insertThing, hy, ih hrest]

theorem insertThing_edge_cases_witness :
    0 < strcmp "Wine" "Chips" ∧
    (∀ y ∈ ["Beer", "Chips"], strcmp y "Chips" ≤ 0) ∧
    Tripleref.insertThing [] "Chips" = ["Chips"] ∧
    Tripleref.insertThing ["Wine", "Beer"] "Chips" = ["Chips", "Wine", "Beer"] ∧
    Tripleref.insertThing ["Beer", "Chips"] "Chips" = ["Beer", "Chips", "Chips"] :=
  ⟨by decide, by decide,
    insertThing_edge_cases "Chips" "Wine" ["Beer"] ["Beer", "Chips"] (by decide) (by decide)⟩

namespace Tripleref

theorem removeThingUnlinks_eq (l : List String) (text : String) :
    removeThingUnlinks l text = 0 := by
  induction l with
  | nil => rfl
  | cons x next ih =>
    unfold removeThingUnlinks
    by_cases h : strcmp text x = 0
    · simp [h]
    · simp [h, ih]

end Tripleref

/-- C15: for every list and every text, whether or not the text occurs in the
list, `removeThing` leaves the list exactly as it was, and its unlink-and-free
block is never run. -/
theorem removeThing_never_unlinks (l : List String) (text : String) :
    Tripleref.removeThing l text = l ∧ Tripleref.removeThingUnlinks l text = 0 :=
  ⟨Tripleref.removeThing_eq l text, Tripleref.removeThingUnlinks_eq l text⟩

/-- C17: on an ascending list the key sequence left by two `insertThing` calls
does not depend on their order: inserting `a` then `b` gives the same list as
inserting `b` then `a`. -/
theorem insertThing_order_independent (l : List String) (a b : String)
    (hl : List.Chain' (fun x y => strcmp x y ≤ 0) l) :
    Tripleref.insertThing (Tripleref.insertThing l a) b =
      Tripleref.insertThing (Tripleref.insertThing l b) a := by
  have hab : (Tripleref.insertThing (Tripleref.insertThing l a) b).Perm (b :: a :: l) :=
    (Tripleref.insertThing_perm _ b).trans ((Tripleref.insertThing_perm l a).cons b)
  have hba : (Tripleref.insertThing (Tripleref.insertThing l b) a).Perm (a :: b :: l) :=
    (Tripleref.insertThing_perm _ a).trans ((Tripleref.insertThing_perm l b).cons a)
  have hperm := hab.trans ((List.Perm.swap a b l).trans hba.symm)
  have hsab := Ascending.sorted
    (Tripleref.insertThing_ascending _ b (Tripleref.insertThing_ascending l a hl))
  have hsba := Ascending.sorted
    (Tripleref.insertThing_ascending _ a (Tripleref.insertThing_ascending l b hl))
  haveI : IsAntisymm String (fun x y => strcmp x y ≤ 0) := ⟨strcmp_antisymm⟩
  exact List.eq_of_perm_of_sorted hperm hsab hsba

theorem insertThing_order_independent_witness :
    List.Chain' (fun x y => strcmp x y ≤ 0) ["Beer", "Pizza"] ∧
    Tripleref.insertThing (Tripleref.insertThing ["Beer", "Pizza"] "Wine") "Chips" =
      Tripleref.insertThing (Tripleref.insertThing ["Beer", "Pizza"] "Chips") "Wine" :=
  have hasc : List.Chain' (fun x y => strcmp x y ≤ 0) ["Beer", "Pizza"] := by
    refine List.Chain'.cons (by decide) ?_
    exact List.chain'_singleton _
  ⟨hasc, insertThing_order_independent ["Beer", "Pizza"] "Wine" "Chips" hasc⟩

/-! ## point.c: `addMiddle` -/

namespace Point

theorem addMiddleLoop_eq (head : List String) (newP : String) (p before : List String)
    (hp : p ≠ []) (hhead : head = before ++ p) :
    addMiddleLoop head newP before p =
      some (before ++ (p.takeWhile fun x => decide (strcmp x newP ≥ 1)) ++
        newP :: p.dropWhile fun x => decide (strcmp x newP ≥ 1)) := by
  induction p generalizing before with
  | nil => exact absurd rfl hp
  | cons x next ih =>
    unfold addMiddleLoop
    by_cases hx : strcmp x newP ≥ 1
    · have hc : ¬ (found == decide (strcmp x newP ≥ 1)) = true := by simp [found, hx]
      simp only [hc, if_false]
      by_cases hn : next = []
      · subst hn
        simp [hhead, addEnd_eq, List.takeWhile_cons, List.dropWhile_cons, hx]
      · simp only [hn, if_false]
        rw [ih (before ++ [x]) hn (by simp [hhead])]
        simp [List.takeWhile_cons, List.dropWhile_cons, hx]
    · have hc : (found == decide (strcmp x newP ≥ 1)) = true := by simp [found, hx]
      simp only [hc, if_true]
      by_cases hb : before = []
      · subst hb
        simp [hhead, addFront, List.takeWhile_cons, List.dropWhile_cons, hx]
      · simp [hb, List.takeWhile_cons, List.dropWhile_cons, hx]

theorem addMiddle_eq (head : List String) (newP : String) :
    addMiddle head newP =
      some ((head.takeWhile fun x => decide (strcmp x newP ≥ 1)) ++
        newP :: head.dropWhile fun x => decide (strcmp x newP ≥ 1)) := by
  cases head with
  | nil => rfl
  | cons x next =>
    show addMiddleLoop (x :: next) newP [] (x :: next) = _
    rw [addMiddleLoop_eq (x :: next) newP (x :: next) [] (by simp) rfl]
    rfl

theorem insert_before_head (p : String → Bool) (l : List String) (k y : String)
    (h : (l.takeWhile p ++ k :: l.dropWhile p).head? = some y) :
    y = k ∨ l.head? = some y := by
  cases l with
  | nil =>
    left
    simpa [eq_comm] using h
  | cons x next =>
    by_cases hx : p x = true
    · right
      simpa [List.takeWhile_cons, hx] using h
    · left
      simpa [List.takeWhile_cons, hx, eq_comm] using h

theorem insert_before_descending (l : List String) (k : String) (hl : Descending l) :
    Descending ((l.takeWhile fun x => decide (strcmp x k ≥ 1)) ++
      k :: l.dropWhile fun x => decide (strcmp x k ≥ 1)) := by
  induction l with
  | nil => simp [Descending]
  | cons x next ih =>
    by_cases hx : strcmp x k ≥ 1
    · simp only [List.takeWhile_cons, List.dropWhile_cons, hx, decide_True, if_true,
        List.cons_append]
      refine List.Chain'.cons' (ih (List.Chain'.tail hl)) ?_
      intro y hy
      rcases insert_before_head _ next k y hy with rfl | hy'
      · have := strcmp_swap x y
        omega
      · exact List.Chain'.rel_head? hl hy'
    · simp only [List.takeWhile_cons, List.dropWhile_cons, hx, decide_False, List.nil_append]
      refine List.Chain'.cons ?_ hl
      omega

theorem addMiddle_perm (head : List String) (newP : String) :
    ∃ l, addMiddle head newP = some l ∧ l.Perm (newP :: head) := by
  refine ⟨_, addMiddle_eq head newP, ?_⟩
  refine List.perm_middle.trans ?_
  rw [List.takeWhile_append_dropWhile]

theorem addEndScan_eq (newP : String) (l : List String) (hl : l ≠ []) :
    addEndScan newP l = some (l ++ [newP]) := by
  induction l with
  | nil => exact absurd rfl hl
  | cons x next ih =>
    unfold addEndScan
    by_cases hn : next = []
    · simp [hn]
    · simp [hn, ih hn]

theorem addEndExec_eq (head : List String) (newP : String) :
    addEndExec head newP = Outcome.returned (addEnd head newP) := by
  unfold addEndExec
  by_cases hh : head = []
  · simp [hh, addEnd]
  · simp [hh, addEndScan_eq newP head hh, addEnd_eq]

theorem addMiddleScan_eq (head : List String) (newP : String) (p before : List String)
    (hp : p ≠ []) :
    ∃ l, addMiddleScan head newP before p = Outcome.returned l ∧
      addMiddleLoop head newP before p = some l := by
  induction p generalizing before with
  | nil => exact absurd rfl hp
  | cons x next ih =>
    unfold addMiddleScan addMiddleLoop
    have hnf : (!found) = true := rfl
    simp only [hnf, if_true]
    by_cases hc : (found == decide (strcmp x newP ≥ 1)) = true
    · simp only [hc, if_true]
      by_cases hb : before = []
      · simp only [hb, if_true]
        exact ⟨_, rfl, rfl⟩
      · simp only [hb, if_false]
        exact ⟨_, rfl, rfl⟩
    · simp only [hc, if_false]
      by_cases hn : next = []
      · simp only [hn, if_true]
        exact ⟨addEnd head newP, addEndExec_eq head newP, rfl⟩
      · simp only [hn, if_false]
        exact ih (before ++ [x]) hn

end Point

/-- C13: for every list and every new element `addMiddle` ends through one of
its `return` statements with a list: it never reads through a `NULL` pointer,
neither in its own loop nor inside the `addEnd` call, and never reaches the end
of the function behind the loop. -/
theorem addMiddle_returns (head : List String) (newP : String) :
    (∃ l, Point.addMiddleExec head newP = Point.Outcome.returned l ∧
      Point.addMiddle head newP = some l) ∧
    Point.addMiddleExec head newP ≠ Point.Outcome.nullDeref ∧
    Point.addMiddleExec head newP ≠ Point.Outcome.noReturn ∧
    Point.addEndExec head newP = Point.Outcome.returned (Point.addEnd head newP) := by
  have hex : ∃ l, Point.addMiddleExec head newP = Point.Outcome.returned l ∧
      Point.addMiddle head newP = some l := by
    cases head with
    | nil => exact ⟨_, rfl, rfl⟩
    | cons x next =>
      obtain ⟨l, h1, h2⟩ := Point.addMiddleScan_eq (x :: next) newP (x :: next) [] (by simp)
      exact ⟨l, by simpa [Point.addMiddleExec] using h1, h2⟩
  obtain ⟨l, h1, h2⟩ := hex
  refine ⟨⟨l, h1, h2⟩, ?_, ?_, Point.addEndExec_eq head newP⟩
  · rw [h1]
    exact fun h => Point.Outcome.noConfusion h
  · rw [h1]
    exact fun h => Point.Outcome.noConfusion h

/-- C16: for every list and every new key `k`, `addMiddle` links the new node
immediately before the first node whose item is `≤ k` in `strcmp` order, or at
the end if every item is `> k`: the result is the longest prefix of items `> k`,
then `k`, then the rest.  Hence a descending (non-increasing) list is mapped to
a descending list. -/
theorem addMiddle_before_first_le (head : List String) (k : String) :
    Point.addMiddle head (Point.newElement k) =
      some ((head.takeWhile fun x => decide (0 < strcmp x k)) ++
        k :: (head.dropWhile fun x => decide (0 < strcmp x k))) ∧
    (∀ y, (head.dropWhile fun x => decide (0 < strcmp x k)).head? = some y → strcmp y k ≤ 0) ∧
    (List.Chain' (fun a b => strcmp b a ≤ 0) head →
      List.Chain' (fun a b => strcmp b a ≤ 0)
        ((head.takeWhile fun x => decide (0 < strcmp x k)) ++
          k :: (head.dropWhile fun x => decide (0 < strcmp x k)))) := by
  have hfun : (fun x : String => decide (0 < strcmp x k)) =
      fun x : String => decide (strcmp x k ≥ 1) := by
    funext x
    exact decide_eq_decide.2 (by omega)
  rw [hfun]
  refine ⟨Point.addMiddle_eq head k, ?_, Point.insert_before_descending head k⟩
  intro y hy
  have := List.head?_dropWhile_not (fun x => decide (strcmp x k ≥ 1)) head
  rw [hy] at this
  simp only [Option.all_some, Bool.not_eq_true', decide_eq_false_iff_not] at this
  omega

theorem addMiddle_before_first_le_witness :
    List.Chain' (fun a b => strcmp b a ≤ 0) ["WINE", "BEER"] ∧
    Point.addMiddle ["WINE", "BEER"] (Point.newElement "CHIPS") =
      some ["WINE", "CHIPS", "BEER"] ∧
    List.Chain' (fun a b => strcmp b a ≤ 0) ["WINE", "CHIPS", "BEER"] :=
  have hdesc : List.Chain' (fun a b => strcmp b a ≤ 0) ["WINE", "BEER"] := by
    refine List.Chain'.cons (by decide) ?_
    exact List.chain'_singleton _
  ⟨hdesc, by decide, (addMiddle_before_first_le ["WINE", "BEER"] "CHIPS").2.2 hdesc⟩

/-! ## point.c: filling and draining a list -/

namespace Point

theorem thread_addMiddle_perm (keys start : List String) :
    ∃ l, thread addMiddle start keys = some l ∧ l.Perm (start ++ keys) := by
  induction keys generalizing start with
  | nil => exact ⟨start, rfl, by simp⟩
  | cons k keys ih =>
    obtain ⟨l1, h1, hp1⟩ := addMiddle_perm start k
    obtain ⟨l, h2, hp2⟩ := ih l1
    refine ⟨l, ?_, ?_⟩
    · unfold thread
      rw [h1]
      exact h2
    · refine hp2.trans ((hp1.append_right keys).trans ?_)
      simpa using (@List.perm_middle String k start keys).symm

theorem delElement_mem (head : List String) (text : String) (h : text ∈ head) :
    delElement head text = some (head.erase text) := by
  unfold delElement
  rw [delElementLoop_mem text head [] h]
  rfl

theorem thread_delElement_perm (order l : List String) (h : l.Perm order) :
    thread delElement l order = some [] := by
  induction order generalizing l with
  | nil =>
    rw [List.perm_nil.1 h]
    rfl
  | cons k order ih =>
    have hk : k ∈ l := h.symm.subset (List.mem_cons_self k order)
    have herase : (l.erase k).Perm order := by
      simpa using h.erase k
    unfold thread
    rw [delElement_mem l k hk]
    exact ih _ herase

end Point

/-- C12: for every finite sequence of keys and every permutation of it,
inserting all the keys with `addMiddle` from the empty list and then removing
every key with `delElement` in the permuted order, threading the returned head
each time, ends with the empty list, the state of a freshly created list. -/
theorem fill_then_drain_empty (keys order : List String) (hperm : order.Perm keys) :
    ∃ filled : List String,
      Point.thread Point.addMiddle [] (keys.map Point.newElement) = some filled ∧
      filled.Perm keys ∧
      Point.thread Point.delElement filled order = some [] ∧
      ((Point.thread Point.addMiddle [] (keys.map Point.newElement)).bind
        fun start => Point.thread Point.delElement start order) = some [] := by
  have hmap : keys.map Point.newElement = keys := by
    have hid : Point.newElement = id := rfl
    rw [hid, List.map_id]
  obtain ⟨filled, h1, hp⟩ := Point.thread_addMiddle_perm keys []
  have hp1 : filled.Perm keys := by simpa using hp
  have h2 := Point.thread_delElement_perm order filled (hp1.trans hperm.symm)
  refine ⟨filled, by rw [hmap]; exact h1, hp1, h2, ?_⟩
  rw [hmap, h1]
  exact h2

theorem fill_then_drain_empty_witness :
    ["BEER", "WINE", "BEER"].Perm ["WINE", "BEER", "BEER"] ∧
    ((Point.thread Point.addMiddle [] (["WINE", "BEER", "BEER"].map Point.newElement)).bind
      fun start => Point.thread Point.delElement start ["BEER", "WINE", "BEER"]) = some [] :=
  have hperm : ["BEER", "WINE", "BEER"].Perm ["WINE", "BEER", "BEER"] :=
    List.Perm.swap "WINE" "BEER" ["BEER"]
  ⟨hperm,
    (fill_then_drain_empty ["WINE", "BEER", "BEER"] ["BEER", "WINE", "BEER"] hperm).elim
      fun _ h => h.2.2.2⟩
